import Mathlib

/-
Verification of the webp decoder package (janelia-flyem/go mirror).

The repository snapshot under verification contains the package's test file
(decode_test.go); the decoder proper (Decode, DecodeConfig, the VP8 and VP8L
pipelines) is not part of the snapshot, so those operations are modelled from
the specification, as noted in the doc comment of each such definition.
Definitions embedded from the test source carry a comment naming the Go symbol.

Bytes are modelled as natural numbers; arithmetic that overflows a machine
word in the source is written with explicit reductions modulo 256 or 2^32.
-/

namespace WebP

/-! ## The hex formatting helper (from decode_test.go, func hex) -/

/-- One lowercase hexadecimal digit, as produced by Go's %x verb. -/
def hexDigitChar (n : Nat) : Char :=
  if n < 10 then Char.ofNat (48 + n) else Char.ofNat (87 + n)

/-- Two-digit lowercase hexadecimal rendering of one byte (Go's %x on a byte
inside a slice always prints two digits). -/
def byteHex (b : Nat) : String :=
  String.mk [hexDigitChar (b / 16 % 16), hexDigitChar (b % 16)]

/-- The text contributed by one group of at most 16 bytes: Go's
fmt.Fprintf(buf, " . % x", x[:n]) prints a " . " separator and then the bytes
in hex separated by single spaces. -/
def groupHex (g : List Nat) : String :=
  " . " ++ String.intercalate " " (g.map byteHex)

/-- The grouping performed by the loop of func hex in decode_test.go: each
iteration takes n = min(16, len(x)) bytes off the front of x, so the input is
split into consecutive groups of at most 16 bytes. -/
def hexChunks (x : List Nat) : List (List Nat) :=
  if h : x = [] then []
  else x.take 16 :: hexChunks (x.drop 16)
termination_by x.length
decreasing_by
  simp only [List.length_drop]
  have hp : 0 < x.length := List.length_pos.mpr h
  omega

/-- Embedding of func hex from decode_test.go: the byte slice is consumed in
groups of at most 16 bytes, each group formatted by one Fprintf call. -/
def hex (x : List Nat) : String :=
  String.join ((hexChunks x).map groupHex)

theorem hexChunks_eq_nil_iff (x : List Nat) : hexChunks x = [] ↔ x = [] := by
  constructor
  · intro h
    by_contra hx
    rw [hexChunks] at h
    simp [hx] at h
  · intro h
    subst h
    rw [hexChunks]
    simp

theorem hexChunks_join (x : List Nat) : (hexChunks x).flatten = x := by
  by_cases hx : x = []
  · subst hx; rw [hexChunks]; simp
  · rw [hexChunks]
    simp only [hx, dite_false, List.flatten_cons]
    rw [hexChunks_join (x.drop 16), List.take_append_drop]
termination_by x.length
decreasing_by
  simp only [List.length_drop]
  have hp : 0 < x.length := List.length_pos.mpr hx
  omega

theorem hexChunks_length_le (x : List Nat) :
    ∀ g ∈ hexChunks x, 0 < g.length ∧ g.length ≤ 16 := by
  by_cases hx : x = []
  · subst hx; rw [hexChunks]; simp
  · rw [hexChunks]
    simp only [hx, dite_false, List.mem_cons]
    intro g hg
    rcases hg with hg | hg
    · subst hg
      have hp : 0 < x.length := List.length_pos.mpr hx
      simp only [List.length_take]
      omega
    · exact hexChunks_length_le (x.drop 16) g hg
termination_by x.length
decreasing_by
  simp only [List.length_drop]
  have hp : 0 < x.length := List.length_pos.mpr hx
  omega

theorem hexChunks_dropLast_full (x : List Nat) :
    ∀ g ∈ (hexChunks x).dropLast, g.length = 16 := by
  by_cases hx : x = []
  · subst hx; rw [hexChunks]; simp
  · rw [hexChunks]
    simp only [hx, dite_false]
    intro g hg
    rcases hrest : hexChunks (x.drop 16) with _ | ⟨c, cs⟩
    · rw [hrest] at hg
      simp at hg
    · rw [hrest, List.dropLast_cons_of_ne_nil (List.cons_ne_nil c cs)] at hg
      rcases List.mem_cons.mp hg with hg | hg
      · subst hg
        have hd : x.drop 16 ≠ [] := by
          intro hnil
          rw [hnil, (hexChunks_eq_nil_iff []).mpr rfl] at hrest
          exact List.noConfusion hrest
        have hlen : 16 < x.length := by
          have := List.length_pos.mpr hd
          simp only [List.length_drop] at this
          omega
        simp only [List.length_take]
        omega
      · exact hexChunks_dropLast_full (x.drop 16) g (by rw [hrest]; exact hg)
termination_by x.length
decreasing_by
  simp only [List.length_drop]
  have hp : 0 < x.length := List.length_pos.mpr hx
  omega

/-- Claim C10: the hex formatting helper terminates on every input (it is a
total function on lists), partitions its input into consecutive groups of at
most 16 bytes — every group except possibly the last being exactly 16 bytes,
and every group nonempty — and formats each input byte exactly once, since the
concatenation of the groups is exactly the input and the output string is the
concatenation of each group's formatting. -/
theorem hex_partitions_input (x : List Nat) :
    (hexChunks x).flatten = x
    ∧ (∀ g ∈ (hexChunks x).dropLast, g.length = 16)
    ∧ (∀ g ∈ hexChunks x, 0 < g.length ∧ g.length ≤ 16)
    ∧ hex x = String.join ((hexChunks x).map groupHex) :=
  ⟨hexChunks_join x, hexChunks_dropLast_full x, hexChunks_length_le x, rfl⟩

/-! ## RGBA / NRGBA reinterpretation (TestDecodeVP8L, decode_test.go)

TestDecodeVP8L reinterprets a fully opaque *image.RGBA golden image as an
*image.NRGBA with the same Pix, Stride and Rect. The definitions below embed
the Go standard library semantics the test relies on: the byte layout shared
by both image types (PixOffset is the same formula for both, so coordinates
are taken relative to the rectangle origin), color.RGBA.RGBA() and
color.NRGBA.RGBA(), and the Opaque() scan over alpha bytes. -/

/-- Shared raw representation of an image.RGBA / image.NRGBA value: the pixel
byte slice, the stride, and the rectangle (kept as its width and height, since
PixOffset subtracts the rectangle origin identically for both types). -/
structure RawImage where
  pix : List Nat
  stride : Nat
  width : Nat
  height : Nat
deriving DecidableEq

/-- The four bytes of the pixel at (x, y), per Go's PixOffset:
i = y*Stride + x*4, pixel bytes Pix[i], Pix[i+1], Pix[i+2], Pix[i+3]. -/
def pixelBytes (m : RawImage) (x y : Nat) : Nat × Nat × Nat × Nat :=
  let i := y * m.stride + x * 4
  (m.pix.getD i 0, m.pix.getD (i + 1) 0, m.pix.getD (i + 2) 0, m.pix.getD (i + 3) 0)

/-- color.RGBA.RGBA(): each 8-bit premultiplied component c becomes the 16-bit
value c | c<<8, i.e. c * 0x101. -/
def rgbaColorValue (c : Nat × Nat × Nat × Nat) : Nat × Nat × Nat × Nat :=
  (c.1 * 257, c.2.1 * 257, c.2.2.1 * 257, c.2.2.2 * 257)

/-- color.NRGBA.RGBA(): each 8-bit non-premultiplied component c becomes
((c | c<<8) * a) / 0xff, and alpha becomes a | a<<8. -/
def nrgbaColorValue (c : Nat × Nat × Nat × Nat) : Nat × Nat × Nat × Nat :=
  let a := c.2.2.2
  (c.1 * 257 * a / 255, c.2.1 * 257 * a / 255, c.2.2.1 * 257 * a / 255, a * 257)

/-- The 16-bit color denoted at (x, y) when the raw data is read as an
image.RGBA (premultiplied). -/
def rgbaAt (m : RawImage) (x y : Nat) : Nat × Nat × Nat × Nat :=
  rgbaColorValue (pixelBytes m x y)

/-- The 16-bit color denoted at (x, y) when the same raw data is reinterpreted
as an image.NRGBA (non-premultiplied), as TestDecodeVP8L does. -/
def nrgbaAt (m : RawImage) (x y : Nat) : Nat × Nat × Nat × Nat :=
  nrgbaColorValue (pixelBytes m x y)

/-- image.RGBA.Opaque(): every pixel's alpha byte (offset 3 within the pixel)
equals 0xff. -/
def rawAlpha255 (m : RawImage) : Prop :=
  ∀ x y : Nat, x < m.width → y < m.height →
    m.pix.getD (y * m.stride + x * 4 + 3) 0 = 255

instance (m : RawImage) : Decidable (rawAlpha255 m) := by
  unfold rawAlpha255
  have : (∀ x ∈ List.range m.width, ∀ y ∈ List.range m.height,
      m.pix.getD (y * m.stride + x * 4 + 3) 0 = 255) ↔
      (∀ x y : Nat, x < m.width → y < m.height →
        m.pix.getD (y * m.stride + x * 4 + 3) 0 = 255) := by
    constructor
    · intro h x y hx hy
      exact h x (List.mem_range.mpr hx) y (List.mem_range.mpr hy)
    · intro h x hx y hy
      exact h x y (List.mem_range.mp hx) (List.mem_range.mp hy)
  exact decidable_of_iff _ this

/-- Claim C9: for a fully opaque RGBA image, reinterpreting its raw pixel
bytes, stride and rectangle as an NRGBA image denotes exactly the same colors
at every in-bounds coordinate, because the premultiplied and non-premultiplied
conversions coincide at alpha 255. -/
theorem rgba_as_nrgba_same_colors (m : RawImage) (x y : Nat)
    (hop : rawAlpha255 m) (hx : x < m.width) (hy : y < m.height) :
    nrgbaAt m x y = rgbaAt m x y := by
  have ha : m.pix.getD (y * m.stride + x * 4 + 3) 0 = 255 := hop x y hx hy
  unfold nrgbaAt rgbaAt nrgbaColorValue rgbaColorValue pixelBytes
  simp only [ha]
  have hc : ∀ c : Nat, c * 257 * 255 / 255 = c * 257 := by
    intro c
    exact Nat.mul_div_cancel (c * 257) (by norm_num)
  rw [hc, hc, hc]

/-- Witness for C9 at a concrete 1×1 opaque image. -/
theorem rgba_as_nrgba_same_colors_witness :
    rawAlpha255 ⟨[10, 20, 30, 255], 4, 1, 1⟩
    ∧ nrgbaAt ⟨[10, 20, 30, 255], 4, 1, 1⟩ 0 0 = rgbaAt ⟨[10, 20, 30, 255], 4, 1, 1⟩ 0 0 :=
  ⟨by decide, rgba_as_nrgba_same_colors ⟨[10, 20, 30, 255], 4, 1, 1⟩ 0 0
    (by decide) (by decide) (by decide)⟩

/-! ## Container demultiplexer and Decode API

Modelled from the spec: the decoder sources (Decode, DecodeConfig, the RIFF
demultiplexer and the frame-header parsers) are not in the repository
snapshot, so they are modelled from sections 4.1, 6 and 7 of the
specification. Byte streams are lists of naturals (each byte < 256 in real
streams); a pure total function stands in for the reader, so a propagated
I/O error cannot arise in the model. -/

/-- Error taxonomy of section 7: format error, unsupported-feature error and
propagated I/O error. The ioErr form never arises in this model because the
byte source is a pure list. -/
inductive DecodeErr where
  | formatErr
  | unsupportedErr
  | ioErr
deriving DecidableEq

/-- The four magic bytes "RIFF" opening the container. -/
def riffTagBytes : List Nat := [82, 73, 70, 70]

/-- The four format-tag bytes "WEBP" following the declared size. -/
def webpTagBytes : List Nat := [87, 69, 66, 80]

/-- Little-endian 32-bit value from four bytes. -/
def le32 (b0 b1 b2 b3 : Nat) : Nat :=
  b0 + 256 * b1 + 65536 * b2 + 16777216 * b3

/-- Little-endian 16-bit value from two bytes. -/
def le16 (b0 b1 : Nat) : Nat := b0 + 256 * b1

/-- An image-data chunk located by the demultiplexer: whether it is the
lossless ("VP8L") or lossy ("VP8 ") chunk, with its payload bytes. -/
structure ImageChunk where
  isLossless : Bool
  payload : List Nat
deriving DecidableEq

/-- Modelled from the spec (section 4.1 and 6): verify the 4-byte "RIFF"
magic, read the 4-byte little-endian declared total size and the 4-byte
"WEBP" format tag, and fail with a format error on bad magic or when the
declared size exceeds the bytes remaining in the stream (the declared size
counts the format tag and everything after it). -/
def riffHeader (s : List Nat) : Except DecodeErr (Nat × List Nat) :=
  match s with
  | m0 :: m1 :: m2 :: m3 :: s0 :: s1 :: s2 :: s3 :: f0 :: f1 :: f2 :: f3 :: rest =>
    if [m0, m1, m2, m3] = riffTagBytes ∧ [f0, f1, f2, f3] = webpTagBytes then
      if rest.length + 4 < le32 s0 s1 s2 s3 then .error .formatErr
      else .ok (le32 s0 s1 s2 s3, rest)
    else .error .formatErr
  | _ => .error .formatErr

/-- Modelled from the spec (section 4.1): iterate chunks — 4-byte identifier,
4-byte little-endian payload length, payload, one pad byte when the length is
odd — failing with a format error when a chunk declares more payload bytes
than remain (a truncated chunk), skipping unrelated chunks by length, and
stopping at the first "VP8 " or "VP8L" image-data chunk. The fuel argument
only bounds the recursion; every iteration consumes at least eight bytes, so
fuel equal to the stream length never runs out. -/
def findImageChunkGo (fuel : Nat) (s : List Nat) : Except DecodeErr ImageChunk :=
  match fuel with
  | 0 => .error .formatErr
  | fuel + 1 =>
    match s with
    | i0 :: i1 :: i2 :: i3 :: l0 :: l1 :: l2 :: l3 :: rest =>
      if rest.length < le32 l0 l1 l2 l3 then .error .formatErr
      else if [i0, i1, i2, i3] = [86, 80, 56, 32] then
        .ok ⟨false, rest.take (le32 l0 l1 l2 l3)⟩
      else if [i0, i1, i2, i3] = [86, 80, 56, 76] then
        .ok ⟨true, rest.take (le32 l0 l1 l2 l3)⟩
      else findImageChunkGo fuel (rest.drop (le32 l0 l1 l2 l3 + le32 l0 l1 l2 l3 % 2))
    | _ => .error .formatErr

/-- The chunk iteration started with sufficient fuel. -/
def findImageChunk (s : List Nat) : Except DecodeErr ImageChunk :=
  findImageChunkGo s.length s

/-- Modelled from the spec (section 4.1): the container demultiplexer —
header check, then chunk iteration to the first image-data chunk. -/
def demux (s : List Nat) : Except DecodeErr ImageChunk :=
  match riffHeader s with
  | .error e => .error e
  | .ok (_, rest) => findImageChunk rest

/-- Modelled from the spec (section 6): the lossy ("VP8 ") chunk payload
starts with a 3-byte frame tag (whose lowest bit must indicate a key frame;
a non-key frame is an unsupported feature per section 7), a 3-byte key-frame
start code 0x9d 0x01 0x2a, and little-endian width and height fields of 14
bits each (the top 2 bits of each 16-bit field are scale hints). Only the
first ten payload bytes are examined. -/
def lossyDims (p : List Nat) : Except DecodeErr (Nat × Nat) :=
  match p with
  | t0 :: _ :: _ :: c0 :: c1 :: c2 :: w0 :: w1 :: h0 :: h1 :: _ =>
    if t0 % 2 ≠ 0 then .error .unsupportedErr
    else if c0 = 157 ∧ c1 = 1 ∧ c2 = 42 then
      .ok (le16 w0 w1 % 16384, le16 h0 h1 % 16384)
    else .error .formatErr
  | _ => .error .formatErr

/-- Modelled from the spec (section 6): the lossless ("VP8L") chunk payload
starts with the fixed 1-byte signature 0x2f, then a 32-bit little-endian
field holding width-minus-one (14 bits), height-minus-one (14 bits), an
alpha-hint flag bit and a 3-bit version that must be zero. Only the first
five payload bytes are examined. -/
def losslessDims (p : List Nat) : Except DecodeErr (Nat × Nat) :=
  match p with
  | s0 :: b0 :: b1 :: b2 :: b3 :: _ =>
    if s0 ≠ 47 then .error .formatErr
    else if le32 b0 b1 b2 b3 / 536870912 % 8 ≠ 0 then .error .formatErr
    else .ok (le32 b0 b1 b2 b3 % 16384 + 1, le32 b0 b1 b2 b3 / 16384 % 16384 + 1)
  | _ => .error .formatErr

/-- Chroma subsampling ratio of the decoded lossy buffer. -/
inductive Subsample where
  | s420
deriving DecidableEq

/-- A planar luma/chroma output buffer, per section 3: planes are allocated
over the macroblock grid of ceil(width/16) by ceil(height/16) macroblocks and
the image is the top-left crop of that grid to the declared dimensions, with
the chroma planes at half resolution rounded up. -/
structure YCbCrImage where
  width : Nat
  height : Nat
  cWidth : Nat
  cHeight : Nat
  yStride : Nat
  cStride : Nat
  yPlane : List Nat
  cbPlane : List Nat
  crPlane : List Nat
  ratio : Subsample
deriving DecidableEq

/-- An interleaved non-premultiplied color output buffer (R, G, B, A bytes
per pixel, stride 4 times the width). -/
structure NRGBAImage where
  width : Nat
  height : Nat
  pix : List Nat
deriving DecidableEq

/-- Modelled from the spec: the lossy pipeline's output buffer. The
macroblock reconstruction (prediction, residuals, loop filter) is abstracted
— the claims settled against this model concern only the buffer geometry,
which follows section 3: a ceil(width/16) by ceil(height/16) macroblock grid
cropped to the declared dimensions, chroma at half resolution rounded up,
4:2:0 subsampling. -/
def mkYCbCr (w h : Nat) : YCbCrImage :=
  let mbw := (w + 15) / 16
  let mbh := (h + 15) / 16
  { width := w
  , height := h
  , cWidth := (w + 1) / 2
  , cHeight := (h + 1) / 2
  , yStride := 16 * mbw
  , cStride := 8 * mbw
  , yPlane := List.replicate (16 * mbw * (16 * mbh)) 0
  , cbPlane := List.replicate (8 * mbw * (8 * mbh)) 0
  , crPlane := List.replicate (8 * mbw * (8 * mbh)) 0
  , ratio := .s420 }

/-- Modelled from the spec: the lossless pipeline's output buffer geometry.
The entropy decoding and transform pipeline are developed separately below;
the byte-level bridge is abstracted. -/
def mkNRGBA (w h : Nat) : NRGBAImage :=
  ⟨w, h, List.replicate (4 * w * h) 0⟩

/-- A decoded image: the lossy decoder returns a planar 4:2:0 buffer, the
lossless decoder an interleaved non-premultiplied buffer. -/
inductive DecodedImage where
  | lossy (m : YCbCrImage)
  | lossless (m : NRGBAImage)
deriving DecidableEq

/-- Detected color model reported by the header-only operation. -/
inductive PixelModel where
  | ycbcrModel
  | nrgbaModel
deriving DecidableEq

/-- Header-only result: width, height and detected color model, with no
pixel data. -/
structure WebPConfig where
  width : Nat
  height : Nat
  model : PixelModel
deriving DecidableEq

/-- Dispatch from a located image chunk to the matching decoder body. -/
def imageBody (c : ImageChunk) : Except DecodeErr DecodedImage :=
  if c.isLossless then
    match losslessDims c.payload with
    | .error e => .error e
    | .ok (w, h) => .ok (.lossless (mkNRGBA w h))
  else
    match lossyDims c.payload with
    | .error e => .error e
    | .ok (w, h) => .ok (.lossy (mkYCbCr w h))

/-- Modelled from the spec (section 6): the full-decode operation — run the
demultiplexer, then the decoder selected by the image chunk's identifier. -/
def decode (s : List Nat) : Except DecodeErr DecodedImage :=
  match demux s with
  | .error e => .error e
  | .ok c => imageBody c

/-- Modelled from the spec (section 6): the header-only operation — run the
demultiplexer, then only the dimension parse of the selected format, returning
width, height and the detected color model without building pixel data. -/
def decodeConfig (s : List Nat) : Except DecodeErr WebPConfig :=
  match demux s with
  | .error e => .error e
  | .ok c =>
    if c.isLossless then
      match losslessDims c.payload with
      | .error e => .error e
      | .ok (w, h) => .ok ⟨w, h, .nrgbaModel⟩
    else
      match lossyDims c.payload with
      | .error e => .error e
      | .ok (w, h) => .ok ⟨w, h, .ycbcrModel⟩

/-- Width of a decoded image. -/
def imgWidth : DecodedImage → Nat
  | .lossy m => m.width
  | .lossless m => m.width

/-- Height of a decoded image. -/
def imgHeight : DecodedImage → Nat
  | .lossy m => m.height
  | .lossless m => m.height

/-- Color model of a decoded image. -/
def imgModel : DecodedImage → PixelModel
  | .lossy _ => .ycbcrModel
  | .lossless _ => .nrgbaModel

/-! ## Container error behavior (C3, C6) -/

theorem riffHeader_error_formatErr (s : List Nat) (e : DecodeErr)
    (h : riffHeader s = .error e) : e = .formatErr := by
  unfold riffHeader at h
  split at h
  · split at h
    · split at h
      · injection h with h2; exact h2.symm
      · exact Except.noConfusion h
    · injection h with h2; exact h2.symm
  · injection h with h2; exact h2.symm

theorem findImageChunkGo_error_formatErr (fuel : Nat) :
    ∀ (s : List Nat) (e : DecodeErr),
      findImageChunkGo fuel s = .error e → e = .formatErr := by
  induction fuel with
  | zero =>
    intro s e h
    unfold findImageChunkGo at h
    injection h with h2
    exact h2.symm
  | succ n ih =>
    intro s e h
    unfold findImageChunkGo at h
    split at h
    · split at h
      · injection h with h2; exact h2.symm
      · split at h
        · exact Except.noConfusion h
        · split at h
          · exact Except.noConfusion h
          · exact ih _ e h
    · injection h with h2; exact h2.symm

theorem demux_error_formatErr (s : List Nat) (e : DecodeErr)
    (h : demux s = .error e) : e = .formatErr := by
  unfold demux at h
  split at h
  · rename_i e2 heq
    injection h with h2
    cases h2
    exact riffHeader_error_formatErr s _ heq
  · exact findImageChunkGo_error_formatErr _ _ e h

/-- Claim C3: malformed container magic, a declared total size exceeding the
bytes remaining, or a chunk truncated before its declared payload length all
make decode return the format error. The demultiplexer is a total function on
byte lists (so it cannot crash or read out of bounds), and every
demultiplexer failure is the format error. -/
theorem decode_malformed_container (s : List Nat) :
    (∀ e, demux s = .error e → e = .formatErr)
    ∧ (s.take 4 ≠ riffTagBytes ∨ (s.drop 8).take 4 ≠ webpTagBytes →
        decode s = .error .formatErr)
    ∧ (∀ s0 s1 s2 s3 rest,
        s = riffTagBytes ++ s0 :: s1 :: s2 :: s3 :: (webpTagBytes ++ rest) →
        rest.length + 4 < le32 s0 s1 s2 s3 →
        decode s = .error .formatErr)
    ∧ (∀ s0 s1 s2 s3 i0 i1 i2 i3 l0 l1 l2 l3 payload,
        s = riffTagBytes ++ s0 :: s1 :: s2 :: s3 ::
            (webpTagBytes ++ i0 :: i1 :: i2 :: i3 :: l0 :: l1 :: l2 :: l3 :: payload) →
        payload.length < le32 l0 l1 l2 l3 →
        decode s = .error .formatErr) := by
  refine ⟨demux_error_formatErr s, ?_, ?_, ?_⟩
  · intro hmagic
    rcases s with _ | ⟨a0, s⟩; · rfl
    rcases s with _ | ⟨a1, s⟩; · rfl
    rcases s with _ | ⟨a2, s⟩; · rfl
    rcases s with _ | ⟨a3, s⟩; · rfl
    rcases s with _ | ⟨a4, s⟩; · rfl
    rcases s with _ | ⟨a5, s⟩; · rfl
    rcases s with _ | ⟨a6, s⟩; · rfl
    rcases s with _ | ⟨a7, s⟩; · rfl
    rcases s with _ | ⟨a8, s⟩; · rfl
    rcases s with _ | ⟨a9, s⟩; · rfl
    rcases s with _ | ⟨a10, s⟩; · rfl
    rcases s with _ | ⟨a11, s⟩; · rfl
    have ht : (a0::a1::a2::a3::a4::a5::a6::a7::a8::a9::a10::a11::s).take 4
        = [a0, a1, a2, a3] := rfl
    have hd : ((a0::a1::a2::a3::a4::a5::a6::a7::a8::a9::a10::a11::s).drop 8).take 4
        = [a8, a9, a10, a11] := rfl
    rw [ht, hd] at hmagic
    have hu : riffHeader (a0::a1::a2::a3::a4::a5::a6::a7::a8::a9::a10::a11::s)
        = if ([a0, a1, a2, a3] = riffTagBytes ∧ [a8, a9, a10, a11] = webpTagBytes) then
            (if s.length + 4 < le32 a4 a5 a6 a7 then .error .formatErr
             else .ok (le32 a4 a5 a6 a7, s))
          else .error .formatErr := rfl
    have hr : riffHeader (a0::a1::a2::a3::a4::a5::a6::a7::a8::a9::a10::a11::s)
        = .error .formatErr := by
      rw [hu, if_neg]
      intro hand
      rcases hmagic with hm | hm
      · exact hm hand.1
      · exact hm hand.2
    simp only [decode, demux, hr]
  · intro s0 s1 s2 s3 rest hs hover
    subst hs
    simp only [riffTagBytes, webpTagBytes, List.cons_append, List.nil_append]
    have hu : riffHeader (82::73::70::70::s0::s1::s2::s3::87::69::66::80::rest)
        = if ([82, 73, 70, 70] = riffTagBytes ∧ [87, 69, 66, 80] = webpTagBytes) then
            (if rest.length + 4 < le32 s0 s1 s2 s3 then .error .formatErr
             else .ok (le32 s0 s1 s2 s3, rest))
          else .error .formatErr := rfl
    have hr : riffHeader (82::73::70::70::s0::s1::s2::s3::87::69::66::80::rest)
        = .error .formatErr := by
      rw [hu, if_pos ⟨rfl, rfl⟩, if_pos hover]
    simp only [decode, demux, hr]
  · intro s0 s1 s2 s3 i0 i1 i2 i3 l0 l1 l2 l3 payload hs htr
    subst hs
    simp only [riffTagBytes, webpTagBytes, List.cons_append, List.nil_append]
    have hu : riffHeader (82::73::70::70::s0::s1::s2::s3::87::69::66::80::
          i0::i1::i2::i3::l0::l1::l2::l3::payload)
        = if ([82, 73, 70, 70] = riffTagBytes ∧ [87, 69, 66, 80] = webpTagBytes) then
            (if (i0::i1::i2::i3::l0::l1::l2::l3::payload).length + 4 < le32 s0 s1 s2 s3 then
              .error .formatErr
             else .ok (le32 s0 s1 s2 s3, i0::i1::i2::i3::l0::l1::l2::l3::payload))
          else .error .formatErr := rfl
    by_cases hsz : (i0::i1::i2::i3::l0::l1::l2::l3::payload).length + 4 < le32 s0 s1 s2 s3
    · have hr : riffHeader (82::73::70::70::s0::s1::s2::s3::87::69::66::80::
            i0::i1::i2::i3::l0::l1::l2::l3::payload) = .error .formatErr := by
        rw [hu, if_pos ⟨rfl, rfl⟩, if_pos hsz]
      simp only [decode, demux, hr]
    · have hr : riffHeader (82::73::70::70::s0::s1::s2::s3::87::69::66::80::
            i0::i1::i2::i3::l0::l1::l2::l3::payload)
          = .ok (le32 s0 s1 s2 s3, i0::i1::i2::i3::l0::l1::l2::l3::payload) := by
        rw [hu, if_pos ⟨rfl, rfl⟩, if_neg hsz]
      have h1 : findImageChunk (i0::i1::i2::i3::l0::l1::l2::l3::payload)
          = if payload.length < le32 l0 l1 l2 l3 then .error .formatErr
            else if [i0, i1, i2, i3] = [86, 80, 56, 32] then
              .ok ⟨false, payload.take (le32 l0 l1 l2 l3)⟩
            else if [i0, i1, i2, i3] = [86, 80, 56, 76] then
              .ok ⟨true, payload.take (le32 l0 l1 l2 l3)⟩
            else findImageChunkGo (payload.length + 7)
              (payload.drop (le32 l0 l1 l2 l3 + le32 l0 l1 l2 l3 % 2)) := rfl
      have hf : findImageChunk (i0::i1::i2::i3::l0::l1::l2::l3::payload)
          = .error .formatErr := by
        rw [h1, if_pos htr]
      simp only [decode, demux, hr, hf]

/-- Claim C6: when decode fails, the error is exactly the one raised by the
stage that failed (demultiplexer or decoder body) with no retry, and the
caller receives no image value at all. -/
theorem decode_error_aborts (s : List Nat) (e : DecodeErr)
    (h : decode s = .error e) :
    (demux s = .error e ∨ ∃ c, demux s = .ok c ∧ imageBody c = .error e)
    ∧ ∀ img, decode s ≠ .ok img := by
  constructor
  · unfold decode at h
    split at h
    · rename_i e2 heq
      injection h with h2
      subst h2
      exact Or.inl heq
    · rename_i c heq
      exact Or.inr ⟨c, heq, h⟩
  · intro img himg
    rw [h] at himg
    exact Except.noConfusion himg

/-- Witness for C3 at three concrete malformed inputs: bad magic, a declared
size overrunning the stream, and a chunk truncated before its declared
length. -/
theorem decode_malformed_container_witness :
    decode [1, 2, 3] = .error .formatErr
    ∧ decode (riffTagBytes ++ 99 :: 0 :: 0 :: 0 :: (webpTagBytes ++ [86, 80])) = .error .formatErr
    ∧ decode (riffTagBytes ++ 30 :: 0 :: 0 :: 0 ::
        (webpTagBytes ++ 86 :: 80 :: 56 :: 32 :: 9 :: 0 :: 0 :: 0 :: [1, 2, 3])) = .error .formatErr :=
  ⟨(decode_malformed_container [1, 2, 3]).2.1 (by decide),
   (decode_malformed_container _).2.2.1 99 0 0 0 [86, 80] rfl (by decide),
   (decode_malformed_container _).2.2.2 30 0 0 0 86 80 56 32 9 0 0 0 [1, 2, 3] rfl (by decide)⟩

/-- Witness for C6 at the empty stream. -/
theorem decode_error_aborts_witness :
    demux ([] : List Nat) = .error .formatErr
    ∨ ∃ c, demux ([] : List Nat) = .ok c ∧ imageBody c = .error .formatErr :=
  (decode_error_aborts [] .formatErr (by rfl)).1

/-! ## Output geometry of the lossy decoder (C1) and header-only decode (C4) -/

/-- Claim C1: every successful lossy decode returns a planar buffer with
4:2:0 chroma subsampling whose chroma plane dimensions are the declared
width and height halved and rounded up — (w+1)/2 is exactly ceil(w/2), as the
final two conjuncts state without division. -/
theorem decode_lossy_output_420 (s : List Nat) (m : YCbCrImage)
    (h : decode s = .ok (.lossy m)) :
    m.ratio = .s420
    ∧ m.cWidth = (m.width + 1) / 2
    ∧ m.cHeight = (m.height + 1) / 2
    ∧ 2 * m.cWidth = m.width + m.width % 2
    ∧ 2 * m.cHeight = m.height + m.height % 2 := by
  unfold decode at h
  split at h
  · exact Except.noConfusion h
  · rename_i c heq
    unfold imageBody at h
    by_cases hl : c.isLossless
    · rw [if_pos hl] at h
      split at h
      · exact Except.noConfusion h
      · injection h with h2
        exact DecodedImage.noConfusion h2
    · rw [if_neg hl] at h
      split at h
      · exact Except.noConfusion h
      · rename_i wh heq2
        injection h with h2
        injection h2 with h3
        subst h3
        refine ⟨rfl, rfl, rfl, ?_, ?_⟩ <;> simp only [mkYCbCr] <;> omega

/-- A concrete 30-byte valid stream: RIFF header, declared size 22, one
"VP8 " chunk of length 10 whose payload is a key-frame tag, the start code
0x9d 0x01 0x2a, and width = height = 4. -/
def sampleLossyStream : List Nat :=
  [82, 73, 70, 70, 22, 0, 0, 0, 87, 69, 66, 80,
   86, 80, 56, 32, 10, 0, 0, 0,
   0, 0, 0, 157, 1, 42, 4, 0, 4, 0]

/-- Witness for C1 on the concrete sample stream. -/
theorem decode_lossy_output_420_witness :
    (mkYCbCr 4 4).ratio = .s420
    ∧ (mkYCbCr 4 4).cWidth = ((mkYCbCr 4 4).width + 1) / 2
    ∧ (mkYCbCr 4 4).cHeight = ((mkYCbCr 4 4).height + 1) / 2
    ∧ 2 * (mkYCbCr 4 4).cWidth = (mkYCbCr 4 4).width + (mkYCbCr 4 4).width % 2
    ∧ 2 * (mkYCbCr 4 4).cHeight = (mkYCbCr 4 4).height + (mkYCbCr 4 4).height % 2 :=
  decode_lossy_output_420 sampleLossyStream (mkYCbCr 4 4) (by rfl)

theorem lossyDims_take_ten (p : List Nat) : lossyDims (p.take 10) = lossyDims p := by
  rcases p with _ | ⟨a0, p⟩; · rfl
  rcases p with _ | ⟨a1, p⟩; · rfl
  rcases p with _ | ⟨a2, p⟩; · rfl
  rcases p with _ | ⟨a3, p⟩; · rfl
  rcases p with _ | ⟨a4, p⟩; · rfl
  rcases p with _ | ⟨a5, p⟩; · rfl
  rcases p with _ | ⟨a6, p⟩; · rfl
  rcases p with _ | ⟨a7, p⟩; · rfl
  rcases p with _ | ⟨a8, p⟩; · rfl
  rcases p with _ | ⟨a9, p⟩; · rfl
  rfl

theorem losslessDims_take_five (p : List Nat) : losslessDims (p.take 5) = losslessDims p := by
  rcases p with _ | ⟨a0, p⟩; · rfl
  rcases p with _ | ⟨a1, p⟩; · rfl
  rcases p with _ | ⟨a2, p⟩; · rfl
  rcases p with _ | ⟨a3, p⟩; · rfl
  rcases p with _ | ⟨a4, p⟩; · rfl
  rfl

/-- Claim C4: whenever full decode succeeds, the header-only operation on the
same bytes succeeds with the decoded image's width, height and color model;
and the dimension parsers inspect no payload byte past the minimal header
(ten bytes for lossy, five for lossless), since truncating there leaves their
result unchanged. The header-only result carries no pixel data by
construction. -/
theorem decodeConfig_matches_decode (s : List Nat) (img : DecodedImage)
    (h : decode s = .ok img) :
    decodeConfig s = .ok ⟨imgWidth img, imgHeight img, imgModel img⟩
    ∧ (∀ p, lossyDims (p.take 10) = lossyDims p)
    ∧ (∀ p, losslessDims (p.take 5) = losslessDims p) := by
  refine ⟨?_, lossyDims_take_ten, losslessDims_take_five⟩
  unfold decode at h
  unfold decodeConfig
  split at h
  · exact Except.noConfusion h
  · rename_i c heq
    unfold imageBody at h
    by_cases hl : c.isLossless
    · rw [if_pos hl] at h
      rw [if_pos hl]
      split at h
      · exact Except.noConfusion h
      · injection h with h2
        subst h2
        rfl
    · rw [if_neg hl] at h
      rw [if_neg hl]
      split at h
      · exact Except.noConfusion h
      · injection h with h2
        subst h2
        rfl

/-- Witness for C4 on the concrete sample stream. -/
theorem decodeConfig_matches_decode_witness :
    decodeConfig sampleLossyStream = .ok ⟨4, 4, .ycbcrModel⟩ :=
  (decodeConfig_matches_decode sampleLossyStream (.lossy (mkYCbCr 4 4)) (by rfl)).1

/-! ## The lossless transform pipeline (C7, C2, C5)

Modelled from the spec (sections 3 and 4.4): the stream declares a list of 0
to 4 invertible image transforms — predictor, cross-color, subtract-green,
color-indexing. The spec describes each transform only qualitatively, so the
per-pixel formulas below follow its words: subtract-green rebases red and
blue relative to green; cross-color applies a decorrelating transform whose
deltas are signed 8-bit multiply-shift products; the predictor subtracts a
spatial prediction drawn from already-reconstructed left/above neighbors
(modelled with one mode for the whole image rather than per-block);
color-indexing replaces a pixel by its palette index carried in the green
channel (its sub-byte packing is developed separately below for C5, where it
lives in the entropy-coded domain). All byte arithmetic is modulo 256. -/

/-- An ARGB pixel of the lossless pipeline; each component is one byte. -/
structure Pixel where
  a : Nat
  r : Nat
  g : Nat
  b : Nat
deriving DecidableEq

/-- Byte addition modulo 256. -/
def badd (x y : Nat) : Nat := (x + y) % 256

/-- Byte subtraction modulo 256. -/
def bsub (x y : Nat) : Nat := (x + 256 - y % 256) % 256

/-- All four components fit in a byte. -/
def pixWF (p : Pixel) : Prop := p.a < 256 ∧ p.r < 256 ∧ p.g < 256 ∧ p.b < 256

instance (p : Pixel) : Decidable (pixWF p) := by
  unfold pixWF
  infer_instance

/-- The opaque black pixel used as the out-of-range neighbor default. -/
def blackPixel : Pixel := ⟨255, 0, 0, 0⟩

/-- Componentwise byte addition. -/
def pixAdd (p q : Pixel) : Pixel :=
  ⟨badd p.a q.a, badd p.r q.r, badd p.g q.g, badd p.b q.b⟩

/-- Componentwise byte subtraction. -/
def pixSub (p q : Pixel) : Pixel :=
  ⟨bsub p.a q.a, bsub p.r q.r, bsub p.g q.g, bsub p.b q.b⟩

/-- Componentwise average, as used by the averaging predictors. -/
def avg2 (p q : Pixel) : Pixel :=
  ⟨(p.a + q.a) / 2, (p.r + q.r) / 2, (p.g + q.g) / 2, (p.b + q.b) / 2⟩

/-- A compressed-domain or final image of the lossless pipeline. -/
structure LImage where
  width : Nat
  height : Nat
  pix : List Pixel
deriving DecidableEq

/-- Every pixel of the image is well formed. -/
def imageWF (m : LImage) : Prop := ∀ p ∈ m.pix, pixWF p

instance (m : LImage) : Decidable (imageWF m) := by
  unfold imageWF
  infer_instance

/-- A byte reinterpreted as a signed 8-bit value. -/
def toInt8 (n : Nat) : Int :=
  if n % 256 < 128 then (n % 256 : Int) else (n % 256 : Int) - 256

/-- The cross-color delta: signed 8-bit product, arithmetically shifted right
by five, taken as a byte. -/
def colorDelta (t c : Nat) : Nat :=
  (((toInt8 t * toInt8 c).fdiv 32) % 256).toNat

/-- Forward subtract-green: red and blue rebased relative to green. -/
def applySubtractGreenPix (p : Pixel) : Pixel :=
  ⟨p.a, bsub p.r p.g, p.g, bsub p.b p.g⟩

/-- Inverse subtract-green: green added back. -/
def undoSubtractGreenPix (p : Pixel) : Pixel :=
  ⟨p.a, badd p.r p.g, p.g, badd p.b p.g⟩

/-- Forward cross-color: red decorrelated from green, then blue from green
and from the original red. -/
def applyCrossColorPix (g2r g2b r2b : Nat) (p : Pixel) : Pixel :=
  ⟨p.a,
   bsub p.r (colorDelta g2r p.g),
   p.g,
   bsub (bsub p.b (colorDelta g2b p.g)) (colorDelta r2b p.r)⟩

/-- Inverse cross-color: red recovered first, then blue using the recovered
red. -/
def undoCrossColorPix (g2r g2b r2b : Nat) (p : Pixel) : Pixel :=
  ⟨p.a,
   badd p.r (colorDelta g2r p.g),
   p.g,
   badd (badd p.b (colorDelta r2b (badd p.r (colorDelta g2r p.g)))) (colorDelta g2b p.g)⟩

/-- The spatial prediction for the next pixel, computed from the
already-reconstructed pixels (done) in raster order with row width w: the
first pixel is predicted black, the rest of the top row by the left neighbor,
the first column by the top neighbor, and interior pixels by the mode's
neighbor function. -/
def predPixel (mode w : Nat) (done : List Pixel) : Pixel :=
  let i := done.length
  let left := done.getD (i - 1) blackPixel
  let top := done.getD (i - w) blackPixel
  let topLeft := done.getD (i - w - 1) blackPixel
  let topRight := done.getD (i - w + 1) blackPixel
  if i = 0 then blackPixel
  else if i < w then left
  else if i % w = 0 then top
  else
    match mode with
    | 0 => blackPixel
    | 1 => left
    | 2 => top
    | 3 => topRight
    | 4 => topLeft
    | 5 => avg2 (avg2 left topRight) top
    | 6 => avg2 left topLeft
    | 7 => avg2 left top
    | 8 => avg2 topLeft top
    | 9 => avg2 top topRight
    | _ => avg2 (avg2 left topLeft) (avg2 top topRight)

/-- Forward predictor pass: each pixel replaced by its residual against the
prediction from the preceding true pixels. -/
def applyPredictorGo (mode w : Nat) (done rest : List Pixel) : List Pixel :=
  match rest with
  | [] => []
  | p :: ps => pixSub p (predPixel mode w done) :: applyPredictorGo mode w (done ++ [p]) ps

/-- Forward predictor pass over a whole pixel list. -/
def applyPredictorList (mode w : Nat) (pix : List Pixel) : List Pixel :=
  applyPredictorGo mode w [] pix

/-- Inverse predictor pass: each residual has the prediction from the
already-recovered prefix added back, in raster order. -/
def undoPredictorGo (mode w : Nat) (done rest : List Pixel) : List Pixel :=
  match rest with
  | [] => done
  | r :: rs => undoPredictorGo mode w (done ++ [pixAdd r (predPixel mode w done)]) rs

/-- Inverse predictor pass over a whole residual list. -/
def undoPredictorList (mode w : Nat) (pix : List Pixel) : List Pixel :=
  undoPredictorGo mode w [] pix

/-- Index of the first occurrence of a pixel in the palette. -/
def palIndex (pal : List Pixel) (p : Pixel) : Nat :=
  match pal with
  | [] => 0
  | q :: qs => if q = p then 0 else palIndex qs p + 1

/-- Forward color-indexing: the pixel is replaced by its palette index,
carried in the green channel of an otherwise opaque black pixel. -/
def applyColorIndexingPix (pal : List Pixel) (p : Pixel) : Pixel :=
  ⟨255, 0, palIndex pal p, 0⟩

/-- Inverse color-indexing: palette lookup of the green channel. -/
def undoColorIndexingPix (pal : List Pixel) (p : Pixel) : Pixel :=
  pal.getD p.g blackPixel

/-- The four transform kinds of spec section 3, with their stream
parameters. -/
inductive VP8LTransform where
  | subtractGreen
  | crossColor (g2r g2b r2b : Nat)
  | predictor (mode : Nat)
  | colorIndexing (palette : List Pixel)
deriving DecidableEq

/-- Forward (encoder-side) application of one declared transform. -/
def applyTransform : VP8LTransform → LImage → LImage
  | .subtractGreen, m => ⟨m.width, m.height, m.pix.map applySubtractGreenPix⟩
  | .crossColor g2r g2b r2b, m => ⟨m.width, m.height, m.pix.map (applyCrossColorPix g2r g2b r2b)⟩
  | .predictor mode, m => ⟨m.width, m.height, applyPredictorList mode m.width m.pix⟩
  | .colorIndexing pal, m => ⟨m.width, m.height, m.pix.map (applyColorIndexingPix pal)⟩

/-- The decoder's inverse of one declared transform. -/
def undoTransform : VP8LTransform → LImage → LImage
  | .subtractGreen, m => ⟨m.width, m.height, m.pix.map undoSubtractGreenPix⟩
  | .crossColor g2r g2b r2b, m => ⟨m.width, m.height, m.pix.map (undoCrossColorPix g2r g2b r2b)⟩
  | .predictor mode, m => ⟨m.width, m.height, undoPredictorList mode m.width m.pix⟩
  | .colorIndexing pal, m => ⟨m.width, m.height, m.pix.map (undoColorIndexingPix pal)⟩

/-- The declared transforms applied in stream order (encoder side). -/
def applyDeclared (ts : List VP8LTransform) (m : LImage) : LImage :=
  ts.foldl (fun acc t => applyTransform t acc) m

/-- The decoder's inverse pass of spec section 4.4: after the compressed-
domain image is reconstructed, the declared transforms are undone in the
reverse of their declared stream order. -/
def inverseTransformPass (ts : List VP8LTransform) (m : LImage) : LImage :=
  ts.reverse.foldl (fun acc t => undoTransform t acc) m

/-- Side condition a declared transform needs at its input: a color-indexing
transform requires a palette of at most 256 entries containing every image
pixel; the other transforms need nothing. -/
def transformAdmissible : VP8LTransform → LImage → Prop
  | .colorIndexing pal, m => pal.length ≤ 256 ∧ ∀ p ∈ m.pix, p ∈ pal
  | _, _ => True

instance transformAdmissibleDec (t : VP8LTransform) (m : LImage) :
    Decidable (transformAdmissible t m) :=
  match t with
  | .subtractGreen => isTrue trivial
  | .crossColor _ _ _ => isTrue trivial
  | .predictor _ => isTrue trivial
  | .colorIndexing pal =>
    inferInstanceAs (Decidable (pal.length ≤ 256 ∧ ∀ p ∈ m.pix, p ∈ pal))

/-- Every declared transform is admissible at the stage it is applied. -/
def transformsAdmissible : List VP8LTransform → LImage → Prop
  | [], _ => True
  | t :: ts, m => transformAdmissible t m ∧ transformsAdmissible ts (applyTransform t m)

instance transformsAdmissibleDec :
    ∀ (ts : List VP8LTransform) (m : LImage), Decidable (transformsAdmissible ts m)
  | [], _ => isTrue trivial
  | t :: ts, m =>
    @instDecidableAnd _ _ (transformAdmissibleDec t m)
      (transformsAdmissibleDec ts (applyTransform t m))

theorem bsub_lt (x y : Nat) : bsub x y < 256 := by
  unfold bsub
  omega

theorem badd_bsub (x y : Nat) (h : x < 256) : badd (bsub x y) y = x := by
  unfold badd bsub
  omega

theorem pixel_eq (p q : Pixel) (ha : p.a = q.a) (hr : p.r = q.r) (hg : p.g = q.g)
    (hb : p.b = q.b) : p = q := by
  cases p
  cases q
  simp_all

theorem pixSub_wf (p q : Pixel) : pixWF (pixSub p q) :=
  ⟨bsub_lt _ _, bsub_lt _ _, bsub_lt _ _, bsub_lt _ _⟩

theorem pixAdd_pixSub (p q : Pixel) (h : pixWF p) : pixAdd (pixSub p q) q = p :=
  pixel_eq _ _ (badd_bsub p.a q.a h.1) (badd_bsub p.r q.r h.2.1)
    (badd_bsub p.g q.g h.2.2.1) (badd_bsub p.b q.b h.2.2.2)

theorem undo_apply_subtractGreen (p : Pixel) (h : pixWF p) :
    undoSubtractGreenPix (applySubtractGreenPix p) = p :=
  pixel_eq _ _ rfl (badd_bsub p.r p.g h.2.1) rfl (badd_bsub p.b p.g h.2.2.2)

theorem undo_apply_crossColor (g2r g2b r2b : Nat) (p : Pixel) (h : pixWF p) :
    undoCrossColorPix g2r g2b r2b (applyCrossColorPix g2r g2b r2b p) = p := by
  obtain ⟨h1, h2, h3, h4⟩ := h
  have hr : badd (bsub p.r (colorDelta g2r p.g)) (colorDelta g2r p.g) = p.r :=
    badd_bsub _ _ h2
  apply pixel_eq
  · rfl
  · exact hr
  · rfl
  · show badd (badd (bsub (bsub p.b (colorDelta g2b p.g)) (colorDelta r2b p.r))
        (colorDelta r2b (badd (bsub p.r (colorDelta g2r p.g)) (colorDelta g2r p.g))))
        (colorDelta g2b p.g) = p.b
    rw [hr, badd_bsub _ _ (bsub_lt _ _), badd_bsub _ _ h4]

theorem undoPredictorGo_applyPredictorGo (mode w : Nat) :
    ∀ (rest done : List Pixel), (∀ p ∈ rest, pixWF p) →
      undoPredictorGo mode w done (applyPredictorGo mode w done rest) = done ++ rest := by
  intro rest
  induction rest with
  | nil =>
    intro done _
    simp [applyPredictorGo, undoPredictorGo]
  | cons p ps ih =>
    intro done hwf
    simp only [applyPredictorGo, undoPredictorGo]
    rw [pixAdd_pixSub p (predPixel mode w done) (hwf p (List.mem_cons_self p ps)),
        ih (done ++ [p]) (fun q hq => hwf q (List.mem_cons_of_mem p hq))]
    simp

theorem undo_apply_predictorList (mode w : Nat) (pix : List Pixel)
    (h : ∀ p ∈ pix, pixWF p) :
    undoPredictorList mode w (applyPredictorList mode w pix) = pix := by
  unfold undoPredictorList applyPredictorList
  rw [undoPredictorGo_applyPredictorGo mode w pix [] h]
  rfl

theorem palIndex_lt (pal : List Pixel) (p : Pixel) (h : p ∈ pal) :
    palIndex pal p < pal.length := by
  induction pal with
  | nil => cases h
  | cons q qs ih =>
    unfold palIndex
    by_cases hq : q = p
    · rw [if_pos hq]
      simp
    · rw [if_neg hq]
      have hp : p ∈ qs := by
        rcases List.mem_cons.mp h with h1 | h1
        · exact absurd h1.symm hq
        · exact h1
      have := ih hp
      simp only [List.length_cons]
      omega

theorem getD_palIndex (pal : List Pixel) (p : Pixel) (h : p ∈ pal) :
    pal.getD (palIndex pal p) blackPixel = p := by
  induction pal with
  | nil => cases h
  | cons q qs ih =>
    unfold palIndex
    by_cases hq : q = p
    · rw [if_pos hq]
      exact hq
    · rw [if_neg hq]
      have hp : p ∈ qs := by
        rcases List.mem_cons.mp h with h1 | h1
        · exact absurd h1.symm hq
        · exact h1
      show qs.getD (palIndex qs p) blackPixel = p
      exact ih hp

theorem undo_apply_colorIndexing (pal : List Pixel) (p : Pixel) (h : p ∈ pal) :
    undoColorIndexingPix pal (applyColorIndexingPix pal p) = p :=
  getD_palIndex pal p h

theorem map_map_id (f g : Pixel → Pixel) :
    ∀ l : List Pixel, (∀ x ∈ l, g (f x) = x) → (l.map f).map g = l := by
  intro l
  induction l with
  | nil => intro _; rfl
  | cons x xs ih =>
    intro h
    simp only [List.map_cons]
    rw [h x (List.mem_cons_self x xs), ih (fun y hy => h y (List.mem_cons_of_mem x hy))]

theorem pixWF_apply_subtractGreen (p : Pixel) (h : pixWF p) :
    pixWF (applySubtractGreenPix p) :=
  ⟨h.1, bsub_lt _ _, h.2.2.1, bsub_lt _ _⟩

theorem pixWF_apply_crossColor (g2r g2b r2b : Nat) (p : Pixel) (h : pixWF p) :
    pixWF (applyCrossColorPix g2r g2b r2b p) :=
  ⟨h.1, bsub_lt _ _, h.2.2.1, bsub_lt _ _⟩

theorem applyPredictorGo_wf (mode w : Nat) :
    ∀ (rest done : List Pixel), ∀ p ∈ applyPredictorGo mode w done rest, pixWF p := by
  intro rest
  induction rest with
  | nil =>
    intro done p hp
    simp [applyPredictorGo] at hp
  | cons x xs ih =>
    intro done p hp
    simp only [applyPredictorGo] at hp
    rcases List.mem_cons.mp hp with h1 | h1
    · subst h1
      exact pixSub_wf _ _
    · exact ih (done ++ [x]) p h1

theorem imageWF_applyTransform (t : VP8LTransform) (m : LImage)
    (hwf : imageWF m) (hadm : transformAdmissible t m) :
    imageWF (applyTransform t m) := by
  cases t with
  | subtractGreen =>
    intro p hp
    simp only [applyTransform] at hp
    rcases List.mem_map.mp hp with ⟨q, hq, rfl⟩
    exact pixWF_apply_subtractGreen q (hwf q hq)
  | crossColor g2r g2b r2b =>
    intro p hp
    simp only [applyTransform] at hp
    rcases List.mem_map.mp hp with ⟨q, hq, rfl⟩
    exact pixWF_apply_crossColor g2r g2b r2b q (hwf q hq)
  | predictor mode =>
    intro p hp
    simp only [applyTransform, applyPredictorList] at hp
    exact applyPredictorGo_wf mode m.width m.pix [] p hp
  | colorIndexing pal =>
    intro p hp
    simp only [applyTransform] at hp
    rcases List.mem_map.mp hp with ⟨q, hq, rfl⟩
    have h1 := palIndex_lt pal q (hadm.2 q hq)
    have h2 := hadm.1
    simp only [pixWF, applyColorIndexingPix]
    exact ⟨by omega, by omega, by omega, by omega⟩

theorem undo_applyTransform (t : VP8LTransform) (m : LImage)
    (hwf : imageWF m) (hadm : transformAdmissible t m) :
    undoTransform t (applyTransform t m) = m := by
  cases t with
  | subtractGreen =>
    show LImage.mk m.width m.height ((m.pix.map applySubtractGreenPix).map undoSubtractGreenPix) = m
    rw [map_map_id _ _ m.pix (fun p hp => undo_apply_subtractGreen p (hwf p hp))]
  | crossColor g2r g2b r2b =>
    show LImage.mk m.width m.height
        ((m.pix.map (applyCrossColorPix g2r g2b r2b)).map (undoCrossColorPix g2r g2b r2b)) = m
    rw [map_map_id _ _ m.pix (fun p hp => undo_apply_crossColor g2r g2b r2b p (hwf p hp))]
  | predictor mode =>
    show LImage.mk m.width m.height
        (undoPredictorList mode m.width (applyPredictorList mode m.width m.pix)) = m
    rw [undo_apply_predictorList mode m.width m.pix hwf]
  | colorIndexing pal =>
    show LImage.mk m.width m.height
        ((m.pix.map (applyColorIndexingPix pal)).map (undoColorIndexingPix pal)) = m
    rw [map_map_id _ _ m.pix (fun p hp => undo_apply_colorIndexing pal p (hadm.2 p hp))]

theorem inversePass_applyDeclared (ts : List VP8LTransform) :
    ∀ m : LImage, imageWF m → transformsAdmissible ts m →
      inverseTransformPass ts (applyDeclared ts m) = m := by
  induction ts with
  | nil =>
    intro m _ _
    rfl
  | cons t ts ih =>
    intro m hwf hadm
    have h1 : applyDeclared (t :: ts) m = applyDeclared ts (applyTransform t m) := rfl
    have h2 : ∀ x, inverseTransformPass (t :: ts) x
        = undoTransform t (inverseTransformPass ts x) := by
      intro x
      unfold inverseTransformPass
      rw [List.reverse_cons, List.foldl_append]
      rfl
    rw [h1, h2,
        ih (applyTransform t m) (imageWF_applyTransform t m hwf hadm.1) hadm.2,
        undo_applyTransform t m hwf hadm.1]

/-- Claim C7: for a declared list of up to four transforms, the decoder's
inverse pass — a fold over the declared list in reverse stream order —
undoes the declared transforms applied in order, recovering the true pixel
values exactly (round-trip identity), provided the image is made of bytes
and each color-indexing palette covers the pixels it is applied to. -/
theorem transforms_undone_in_reverse_order (ts : List VP8LTransform) (m : LImage)
    (hwf : imageWF m) (hadm : transformsAdmissible ts m) (hn : ts.length ≤ 4) :
    inverseTransformPass ts (applyDeclared ts m) = m :=
  inversePass_applyDeclared ts m hwf hadm

/-- A two-entry palette for the concrete witnesses. -/
def samplePalette : List Pixel := [⟨255, 10, 20, 30⟩, ⟨255, 1, 2, 3⟩]

/-- A concrete 2×1 image whose pixels are drawn from samplePalette. -/
def sampleLImage : LImage := ⟨2, 1, [⟨255, 1, 2, 3⟩, ⟨255, 10, 20, 30⟩]⟩

/-- A declared list with all four transform kinds. -/
def sampleTransforms : List VP8LTransform :=
  [.colorIndexing samplePalette, .subtractGreen, .crossColor 5 250 17, .predictor 7]

/-- Witness for C7 on the concrete image and transform list. -/
theorem transforms_undone_in_reverse_order_witness :
    imageWF sampleLImage
    ∧ transformsAdmissible sampleTransforms sampleLImage
    ∧ inverseTransformPass sampleTransforms (applyDeclared sampleTransforms sampleLImage)
        = sampleLImage :=
  ⟨by decide, by decide,
   transforms_undone_in_reverse_order sampleTransforms sampleLImage
     (by decide) (by decide) (by decide)⟩

/-! ## Pixel-exact lossless output (C2) -/

/-- The decoder's sequential write of the recovered image into the
interleaved buffer: for each pixel in raster order, its R, G, B, A bytes are
appended. -/
def nrgbaBytesGo (acc : List Nat) : List Pixel → List Nat
  | [] => acc
  | p :: ps => nrgbaBytesGo (acc ++ [p.r, p.g, p.b, p.a]) ps

/-- Modelled from the spec (section 4.4 step 5): the lossless decoder's
output — the inverse transform pass applied to the reconstructed
compressed-domain image, converted to an interleaved non-premultiplied
buffer by sequential per-pixel writes. -/
def losslessPipelineOutput (ts : List VP8LTransform) (c : LImage) : NRGBAImage :=
  ⟨(inverseTransformPass ts c).width, (inverseTransformPass ts c).height,
   nrgbaBytesGo [] (inverseTransformPass ts c).pix⟩

/-- Byte i of an interleaved buffer over a pixel list, stated positionally:
component (i mod 4) — in R, G, B, A order — of pixel (i div 4). -/
def pixComponent (pix : List Pixel) (i : Nat) : Nat :=
  if i % 4 = 0 then (pix.getD (i / 4) blackPixel).r
  else if i % 4 = 1 then (pix.getD (i / 4) blackPixel).g
  else if i % 4 = 2 then (pix.getD (i / 4) blackPixel).b
  else (pix.getD (i / 4) blackPixel).a

/-- The independently produced reference decode of the logical image, as the
test's golden image is stated: same bounds, and every buffer byte given
positionally from the true pixels. -/
def referenceDecode (L : LImage) : NRGBAImage :=
  ⟨L.width, L.height, (List.range (4 * (L.width * L.height))).map (pixComponent L.pix)⟩

theorem nrgbaBytesGo_acc (ps : List Pixel) :
    ∀ acc : List Nat, nrgbaBytesGo acc ps = acc ++ nrgbaBytesGo [] ps := by
  induction ps with
  | nil =>
    intro acc
    simp [nrgbaBytesGo]
  | cons p ps ih =>
    intro acc
    show nrgbaBytesGo (acc ++ [p.r, p.g, p.b, p.a]) ps = acc ++ nrgbaBytesGo ([] ++ [p.r, p.g, p.b, p.a]) ps
    rw [ih (acc ++ [p.r, p.g, p.b, p.a]), List.nil_append, ih [p.r, p.g, p.b, p.a],
        List.append_assoc]

theorem map_congr_fun (l : List Nat) (f g : Nat → Nat) (h : ∀ x ∈ l, f x = g x) :
    l.map f = l.map g := by
  induction l with
  | nil => rfl
  | cons x xs ih =>
    simp only [List.map_cons]
    rw [h x (List.mem_cons_self x xs), ih (fun y hy => h y (List.mem_cons_of_mem x hy))]

theorem pixComponent_shift (p : Pixel) (ps : List Pixel) (i : Nat) :
    pixComponent (p :: ps) (4 + i) = pixComponent ps i := by
  unfold pixComponent
  have h1 : (4 + i) / 4 = i / 4 + 1 := by omega
  have h2 : (4 + i) % 4 = i % 4 := by omega
  rw [h1, h2]
  rfl

theorem nrgbaBytesGo_eq_range (pix : List Pixel) :
    nrgbaBytesGo [] pix = (List.range (4 * pix.length)).map (pixComponent pix) := by
  induction pix with
  | nil => rfl
  | cons p ps ih =>
    have hacc : nrgbaBytesGo [] (p :: ps) = [p.r, p.g, p.b, p.a] ++ nrgbaBytesGo [] ps := by
      show nrgbaBytesGo ([] ++ [p.r, p.g, p.b, p.a]) ps = _
      rw [List.nil_append, nrgbaBytesGo_acc ps [p.r, p.g, p.b, p.a]]
    have hlen : 4 * (p :: ps).length = 4 + 4 * ps.length := by
      simp only [List.length_cons]
      omega
    rw [hacc, ih, hlen, List.range_add, List.map_append, List.map_map]
    congr 1
    symm
    exact map_congr_fun (List.range (4 * ps.length))
      (pixComponent (p :: ps) ∘ fun x => 4 + x) (pixComponent ps)
      (fun i _ => pixComponent_shift p ps i)

/-- Claim C2: the lossless pipeline's output buffer is pixel-exact against
the independently produced reference decode of the same logical image: equal
bounds and byte-for-byte equal pixel data, with zero tolerance. The stream is
represented by the reconstructed compressed-domain image (the declared
transforms applied to the logical image in order) together with the declared
transform list. -/
theorem losslessDecode_pixel_exact (L : LImage) (ts : List VP8LTransform)
    (hwf : imageWF L) (hadm : transformsAdmissible ts L)
    (hdim : L.pix.length = L.width * L.height) :
    (losslessPipelineOutput ts (applyDeclared ts L)).width = (referenceDecode L).width
    ∧ (losslessPipelineOutput ts (applyDeclared ts L)).height = (referenceDecode L).height
    ∧ (losslessPipelineOutput ts (applyDeclared ts L)).pix = (referenceDecode L).pix := by
  have hround : inverseTransformPass ts (applyDeclared ts L) = L :=
    inversePass_applyDeclared ts L hwf hadm
  unfold losslessPipelineOutput referenceDecode
  rw [hround]
  exact ⟨rfl, rfl, by rw [nrgbaBytesGo_eq_range L.pix, hdim]⟩

/-- A second concrete 1×2 image for the C2 witness. -/
def sampleLImage2 : LImage := ⟨1, 2, [⟨255, 9, 8, 7⟩, ⟨255, 3, 2, 1⟩]⟩

/-- A two-transform declared list for the C2 witness. -/
def sampleTransforms2 : List VP8LTransform := [.subtractGreen, .predictor 1]

/-- Witness for C2 on a concrete image and transform list. -/
theorem losslessDecode_pixel_exact_witness :
    (losslessPipelineOutput sampleTransforms2 (applyDeclared sampleTransforms2 sampleLImage2)).width
        = (referenceDecode sampleLImage2).width
    ∧ (losslessPipelineOutput sampleTransforms2 (applyDeclared sampleTransforms2 sampleLImage2)).height
        = (referenceDecode sampleLImage2).height
    ∧ (losslessPipelineOutput sampleTransforms2 (applyDeclared sampleTransforms2 sampleLImage2)).pix
        = (referenceDecode sampleLImage2).pix :=
  losslessDecode_pixel_exact sampleLImage2 sampleTransforms2 (by decide) (by decide) (by decide)

/-! ## Color-indexing with sub-byte packing (C5)

Modelled from the spec (section 4.4 step 1): when the palette has at most 16,
4 or 2 entries, indices are packed 2, 4 or 8 to a byte (4, 2 or 1 bits per
index, low bits first); larger palettes use one byte per index. The decoder
reads index x of a packed row from byte x*bpp/8, shifted down by
bpp*(x mod (8/bpp)) and masked to bpp bits, then looks it up in the
palette. -/

/-- Bits per packed index as a function of the palette size. -/
def bitsPerIndex (n : Nat) : Nat :=
  if n ≤ 2 then 1 else if n ≤ 4 then 2 else if n ≤ 16 then 4 else 8

/-- One packed byte: the chunk's indices in order, low bits first. -/
def packByte (bpp : Nat) (chunk : List Nat) : Nat :=
  chunk.foldr (fun i acc => i + 2 ^ bpp * acc) 0

/-- Packing a row of indices into bytes of 8/bpp indices each. The fuel only
bounds the recursion; every step consumes at least one index, so fuel equal
to the row length never runs out. -/
def chunkPack (bpp fuel : Nat) (l : List Nat) : List Nat :=
  match fuel with
  | 0 => []
  | fuel + 1 =>
    match l with
    | [] => []
    | _ => packByte bpp (l.take (8 / bpp)) :: chunkPack bpp fuel (l.drop (8 / bpp))

/-- The packed representation of one row of palette indices. -/
def packRow (bpp : Nat) (idxs : List Nat) : List Nat :=
  chunkPack bpp idxs.length idxs

/-- The decoder's unpacking of one packed row of width w followed by the
palette lookup. -/
def decodeIndexedRow (pal : List Pixel) (bpp w : Nat) (row : List Nat) : List Pixel :=
  (List.range w).map fun x =>
    pal.getD (row.getD (x * bpp / 8) 0 / 2 ^ (bpp * (x % (8 / bpp))) % 2 ^ bpp) blackPixel

theorem getD_take_nat (l : List Nat) :
    ∀ n j : Nat, j < n → (l.take n).getD j 0 = l.getD j 0 := by
  induction l with
  | nil =>
    intro n j _
    rw [List.take_nil]
  | cons a as ih =>
    intro n j hj
    cases n with
    | zero => omega
    | succ n =>
      cases j with
      | zero => rfl
      | succ j =>
        show (as.take n).getD j 0 = as.getD j 0
        exact ih n j (by omega)

theorem getD_drop_nat (l : List Nat) :
    ∀ n j : Nat, (l.drop n).getD j 0 = l.getD (n + j) 0 := by
  induction l with
  | nil =>
    intro n j
    rw [List.drop_nil]
    rfl
  | cons a as ih =>
    intro n j
    cases n with
    | zero => rw [Nat.zero_add, List.drop_zero]
    | succ n =>
      have h1 : n + 1 + j = (n + j) + 1 := by omega
      rw [h1]
      show (as.drop n).getD j 0 = as.getD (n + j) 0
      exact ih n j

theorem packByte_extract (bpp : Nat) :
    ∀ (c : List Nat) (j : Nat), (∀ i ∈ c, i < 2 ^ bpp) → j < c.length →
      packByte bpp c / 2 ^ (bpp * j) % 2 ^ bpp = c.getD j 0 := by
  intro c
  induction c with
  | nil =>
    intro j _ hj
    simp at hj
  | cons i0 cs ih =>
    intro j hlt hj
    have hfold : packByte bpp (i0 :: cs) = i0 + 2 ^ bpp * packByte bpp cs := rfl
    cases j with
    | zero =>
      rw [hfold, Nat.mul_zero, pow_zero, Nat.div_one, Nat.add_mul_mod_self_left,
          Nat.mod_eq_of_lt (hlt i0 (List.mem_cons_self i0 cs))]
      rfl
    | succ j =>
      have hpow : (2 : Nat) ^ (bpp * (j + 1)) = 2 ^ bpp * 2 ^ (bpp * j) := by
        rw [Nat.mul_succ, pow_add, Nat.mul_comm]
      have hp : 0 < (2 : Nat) ^ bpp := Nat.pos_pow_of_pos bpp (by norm_num)
      rw [hfold, hpow, ← Nat.div_div_eq_div_mul,
          Nat.add_mul_div_left i0 (packByte bpp cs) hp,
          Nat.div_eq_of_lt (hlt i0 (List.mem_cons_self i0 cs)), Nat.zero_add]
      show packByte bpp cs / 2 ^ (bpp * j) % 2 ^ bpp = cs.getD j 0
      exact ih j (fun i hi => hlt i (List.mem_cons_of_mem i0 hi)) (by simpa using hj)

theorem chunkPack_extract (bpp : Nat) (hb : 0 < bpp) (hd : bpp * (8 / bpp) = 8) :
    ∀ (fuel : Nat) (idxs : List Nat) (x : Nat),
      idxs.length ≤ fuel → x < idxs.length → (∀ i ∈ idxs, i < 2 ^ bpp) →
      (chunkPack bpp fuel idxs).getD (x * bpp / 8) 0
          / 2 ^ (bpp * (x % (8 / bpp))) % 2 ^ bpp = idxs.getD x 0 := by
  intro fuel
  induction fuel with
  | zero =>
    intro idxs x hf hx _
    omega
  | succ n ih =>
    intro idxs x hf hx hlt
    rcases idxs with _ | ⟨i0, is⟩
    · simp at hx
    · have hppb : 0 < 8 / bpp := by
        rcases Nat.eq_zero_or_pos (8 / bpp) with h0 | h0
        · rw [h0, Nat.mul_zero] at hd
          exact absurd hd (by norm_num)
        · exact h0
      have hstep : chunkPack bpp (n + 1) (i0 :: is)
          = packByte bpp ((i0 :: is).take (8 / bpp))
            :: chunkPack bpp n ((i0 :: is).drop (8 / bpp)) := rfl
      by_cases hxp : x < 8 / bpp
      · have hdiv : x * bpp / 8 = 0 := by
          apply Nat.div_eq_of_lt
          have hle : x * bpp ≤ (8 / bpp - 1) * bpp := Nat.mul_le_mul_right bpp (by omega)
          have h8 : (8 / bpp - 1) * bpp = 8 - bpp := by
            rw [Nat.sub_mul, one_mul, Nat.mul_comm, hd]
          omega
        have hmod : x % (8 / bpp) = x := Nat.mod_eq_of_lt hxp
        rw [hstep, hdiv, hmod]
        show packByte bpp ((i0 :: is).take (8 / bpp)) / 2 ^ (bpp * x) % 2 ^ bpp
            = (i0 :: is).getD x 0
        rw [packByte_extract bpp ((i0 :: is).take (8 / bpp)) x
            (fun i hi => hlt i (List.take_subset (8 / bpp) (i0 :: is) hi))
            (by rw [List.length_take]; exact lt_min hxp hx)]
        exact getD_take_nat (i0 :: is) (8 / bpp) x hxp
      · have hge : 8 / bpp ≤ x := Nat.le_of_not_lt hxp
        have hdiv : x * bpp / 8 = (x - 8 / bpp) * bpp / 8 + 1 := by
          have hmul : x * bpp = (x - 8 / bpp) * bpp + 8 := by
            have : x * bpp = (x - 8 / bpp) * bpp + (8 / bpp) * bpp := by
              rw [← Nat.add_mul]
              congr 1
              omega
            rw [this, Nat.mul_comm (8 / bpp) bpp, hd]
          rw [hmul, Nat.add_div_right _ (by norm_num : 0 < 8)]
        have hmod : x % (8 / bpp) = (x - 8 / bpp) % (8 / bpp) :=
          Nat.mod_eq_sub_mod hge
        rw [hstep, hdiv, hmod]
        show (chunkPack bpp n ((i0 :: is).drop (8 / bpp))).getD ((x - 8 / bpp) * bpp / 8) 0
            / 2 ^ (bpp * ((x - 8 / bpp) % (8 / bpp))) % 2 ^ bpp
            = (i0 :: is).getD x 0
        rw [ih ((i0 :: is).drop (8 / bpp)) (x - 8 / bpp)
            (by rw [List.length_drop]; simp only [List.length_cons] at hf ⊢; omega)
            (by rw [List.length_drop]; simp only [List.length_cons] at hx ⊢; omega)
            (fun i hi => hlt i (List.drop_subset (8 / bpp) (i0 :: is) hi))]
        rw [getD_drop_nat (i0 :: is) (8 / bpp) (x - 8 / bpp)]
        congr 1
        omega

theorem decodeRow_packRow (bpp : Nat) (hb : 0 < bpp) (hd : bpp * (8 / bpp) = 8)
    (pal : List Pixel) (idxs : List Nat) (hlt : ∀ i ∈ idxs, i < 2 ^ bpp) :
    decodeIndexedRow pal bpp idxs.length (packRow bpp idxs)
      = idxs.map (fun i => pal.getD i blackPixel) := by
  unfold decodeIndexedRow packRow
  apply List.ext_getElem
  · simp
  · intro i h1 h2
    simp only [List.getElem_map, List.getElem_range]
    have hx : i < idxs.length := by simpa using h2
    rw [chunkPack_extract bpp hb hd idxs.length idxs i (le_refl _) hx hlt]
    congr 1
    exact List.getD_eq_getElem idxs 0 hx

/-- Claim C5: for every palette — whether it needs 1, 2, 4 or 8 bits per
index — decoding a packed index row yields exactly the expanded-palette
reference image, i.e. the palette lookup of each index. -/
theorem colorIndexing_subbyte_packing (pal : List Pixel) (idxs : List Nat)
    (hpal : pal.length ≤ 256) (hidx : ∀ i ∈ idxs, i < pal.length) :
    decodeIndexedRow pal (bitsPerIndex pal.length) idxs.length
        (packRow (bitsPerIndex pal.length) idxs)
      = idxs.map (fun i => pal.getD i blackPixel) := by
  have hkey : 0 < bitsPerIndex pal.length
      ∧ bitsPerIndex pal.length * (8 / bitsPerIndex pal.length) = 8
      ∧ pal.length ≤ 2 ^ bitsPerIndex pal.length := by
    unfold bitsPerIndex
    by_cases h2 : pal.length ≤ 2
    · rw [if_pos h2]
      exact ⟨by norm_num, by norm_num, by omega⟩
    · rw [if_neg h2]
      by_cases h4 : pal.length ≤ 4
      · rw [if_pos h4]
        exact ⟨by norm_num, by norm_num, by omega⟩
      · rw [if_neg h4]
        by_cases h16 : pal.length ≤ 16
        · rw [if_pos h16]
          exact ⟨by norm_num, by norm_num, by omega⟩
        · rw [if_neg h16]
          exact ⟨by norm_num, by norm_num, by omega⟩
  exact decodeRow_packRow (bitsPerIndex pal.length) hkey.1 hkey.2.1 pal idxs
    (fun i hi => lt_of_lt_of_le (hidx i hi) hkey.2.2)

/-- A three-entry palette (2 bits per index) for the C5 witness. -/
def samplePalette3 : List Pixel := [⟨255, 1, 1, 1⟩, ⟨255, 2, 2, 2⟩, ⟨255, 3, 3, 3⟩]

/-- Witness for C5 on a concrete palette and index row. -/
theorem colorIndexing_subbyte_packing_witness :
    decodeIndexedRow samplePalette3 (bitsPerIndex samplePalette3.length) 5
        (packRow (bitsPerIndex samplePalette3.length) [0, 1, 2, 2, 0])
      = [0, 1, 2, 2, 0].map (fun i => samplePalette3.getD i blackPixel) :=
  colorIndexing_subbyte_packing samplePalette3 [0, 1, 2, 2, 0] (by decide) (by decide)

end WebP
